import Mathlib

/-!
Verification of `misc_functions.py` (CAMP-Project): image
preprocessing/denormalization, saliency/gradient export, CAM overlay
rendering, and model/label lookup helpers.

Arrays are embedded as functions over `Fin` index types with exact rational
(`ℚ`) pixel values; the numpy scalar conversions (`np.round`, `np.uint8`) are
modelled explicitly below.
-/

namespace CampMisc

/-! ## Numeric primitives (numpy scalar semantics) -/

/-- `np.round`: round half to even (banker's rounding), as numpy does. -/
def npRound (q : ℚ) : ℤ :=
  let n : ℤ := ⌊q⌋
  let r : ℚ := q - n
  if r < 1 / 2 then n
  else if 1 / 2 < r then n + 1
  else if n % 2 = 0 then n else n + 1

/-- Truncation toward zero, as C float-to-integer conversion does. -/
def ratTrunc (q : ℚ) : ℤ := if 0 ≤ q then ⌊q⌋ else -⌊-q⌋

/-- `np.uint8` applied to a float value: truncate toward zero, wrap mod 256. -/
def npUint8 (q : ℚ) : ℤ := ratTrunc q % 256

/-- `np.uint8` applied to an integral value: wrap mod 256. -/
def npUint8OfInt (z : ℤ) : ℤ := z % 256

theorem npRound_intCast (z : ℤ) : npRound (z : ℚ) = z := by
  simp [npRound, Int.floor_intCast]

theorem ratTrunc_of_nonneg (q : ℚ) (h : 0 ≤ q) : ratTrunc q = ⌊q⌋ := by
  simp [ratTrunc, h]

theorem npUint8_of_mem_Icc (q : ℚ) (h0 : 0 ≤ q) (h255 : q ≤ 255) :
    npUint8 q = ⌊q⌋ ∧ 0 ≤ npUint8 q ∧ npUint8 q ≤ 255 := by
  have hf0 : 0 ≤ ⌊q⌋ := Int.floor_nonneg.2 h0
  have hf255 : ⌊q⌋ ≤ 255 := by
    have := Int.floor_le_floor (α := ℚ) h255
    simpa using this
  have hmod : ⌊q⌋ % 256 = ⌊q⌋ := Int.emod_eq_of_lt hf0 (by omega)
  refine ⟨?_, ?_, ?_⟩ <;> simp [npUint8, ratTrunc_of_nonneg q h0, hmod] <;> omega

theorem npUint8OfInt_of_mem_Icc (z : ℤ) (h0 : 0 ≤ z) (h255 : z ≤ 255) :
    npUint8OfInt z = z := by
  simpa [npUint8OfInt] using Int.emod_eq_of_lt h0 (by omega)

/-! ## Maximum and minimum of a nonempty array (np.max / np.min)

`np.max` / `np.min` flatten the array; we model them as nested folds over the
`Fin` index dimensions, which yields the same value. -/

def vecMax {α : Type} [LinearOrder α] : {n : ℕ} → (Fin (n + 1) → α) → α
  | 0, v => v 0
  | _ + 1, v => max (vecMax fun i => v i.castSucc) (v (Fin.last _))

def vecMin {α : Type} [LinearOrder α] : {n : ℕ} → (Fin (n + 1) → α) → α
  | 0, v => v 0
  | _ + 1, v => min (vecMin fun i => v i.castSucc) (v (Fin.last _))

theorem le_vecMax {α : Type} [LinearOrder α] :
    ∀ {n : ℕ} (v : Fin (n + 1) → α) (i : Fin (n + 1)), v i ≤ vecMax v := by
  intro n
  induction n with
  | zero =>
    intro v i
    have : i = 0 := Fin.ext (by omega)
    simp [this, vecMax]
  | succ m ih =>
    intro v i
    rcases Fin.eq_castSucc_or_eq_last i with ⟨j, hj⟩ | hl
    · subst hj
      exact le_trans (ih (fun k => v k.castSucc) j) (le_max_left _ _)
    · rw [hl]; exact le_max_right _ _

theorem vecMax_attained {α : Type} [LinearOrder α] :
    ∀ {n : ℕ} (v : Fin (n + 1) → α), ∃ i, vecMax v = v i := by
  intro n
  induction n with
  | zero => intro v; exact ⟨0, rfl⟩
  | succ m ih =>
    intro v
    rcases ih (fun k => v k.castSucc) with ⟨j, hj⟩
    rcases le_total (vecMax fun k => v k.castSucc) (v (Fin.last _)) with h | h
    · refine ⟨Fin.last _, ?_⟩
      show max (vecMax fun k => v k.castSucc) (v (Fin.last _)) = _
      rw [max_eq_right h]
    · refine ⟨j.castSucc, ?_⟩
      show max (vecMax fun k => v k.castSucc) (v (Fin.last _)) = _
      rw [max_eq_left h, hj]

theorem vecMin_le {α : Type} [LinearOrder α] :
    ∀ {n : ℕ} (v : Fin (n + 1) → α) (i : Fin (n + 1)), vecMin v ≤ v i := by
  intro n
  induction n with
  | zero =>
    intro v i
    have : i = 0 := Fin.ext (by omega)
    simp [this, vecMin]
  | succ m ih =>
    intro v i
    rcases Fin.eq_castSucc_or_eq_last i with ⟨j, hj⟩ | hl
    · subst hj
      exact le_trans (min_le_left _ _) (ih (fun k => v k.castSucc) j)
    · rw [hl]; exact min_le_right _ _

theorem vecMin_attained {α : Type} [LinearOrder α] :
    ∀ {n : ℕ} (v : Fin (n + 1) → α), ∃ i, vecMin v = v i := by
  intro n
  induction n with
  | zero => intro v; exact ⟨0, rfl⟩
  | succ m ih =>
    intro v
    rcases ih (fun k => v k.castSucc) with ⟨j, hj⟩
    rcases le_total (vecMin fun k => v k.castSucc) (v (Fin.last _)) with h | h
    · refine ⟨j.castSucc, ?_⟩
      show min (vecMin fun k => v k.castSucc) (v (Fin.last _)) = _
      rw [min_eq_left h, hj]
    · refine ⟨Fin.last _, ?_⟩
      show min (vecMin fun k => v k.castSucc) (v (Fin.last _)) = _
      rw [min_eq_right h]

/-- `np.max` of a (3, H, W) float array, as nested maxima over the axes. -/
def arrMaxCHW {H W : ℕ} (g : Fin 3 → Fin (H + 1) → Fin (W + 1) → ℚ) : ℚ :=
  vecMax (n := 2) fun c => vecMax fun h => vecMax fun w => g c h w

/-- `np.min` of a (3, H, W) float array, as nested minima over the axes. -/
def arrMinCHW {H W : ℕ} (g : Fin 3 → Fin (H + 1) → Fin (W + 1) → ℚ) : ℚ :=
  vecMin (n := 2) fun c => vecMin fun h => vecMin fun w => g c h w

/-- `np.max` of an (H, W, 3) array. -/
def arrMaxHWC {α : Type} [LinearOrder α] {H W : ℕ}
    (s : Fin (H + 1) → Fin (W + 1) → Fin 3 → α) : α :=
  vecMax fun h => vecMax fun w => vecMax (n := 2) fun c => s h w c

/-- `np.min` of an (H, W, 3) array. -/
def arrMinHWC {α : Type} [LinearOrder α] {H W : ℕ}
    (s : Fin (H + 1) → Fin (W + 1) → Fin 3 → α) : α :=
  vecMin fun h => vecMin fun w => vecMin (n := 2) fun c => s h w c

theorem le_arrMaxCHW {H W : ℕ} (g : Fin 3 → Fin (H + 1) → Fin (W + 1) → ℚ)
    (c : Fin 3) (h : Fin (H + 1)) (w : Fin (W + 1)) : g c h w ≤ arrMaxCHW g :=
  le_trans (le_vecMax _ w) (le_trans (le_vecMax (fun h2 => vecMax fun w2 => g c h2 w2) h)
    (le_vecMax (n := 2) (fun c2 => vecMax fun h2 => vecMax fun w2 => g c2 h2 w2) c))

theorem arrMaxCHW_attained {H W : ℕ} (g : Fin 3 → Fin (H + 1) → Fin (W + 1) → ℚ) :
    ∃ c h w, arrMaxCHW g = g c h w := by
  obtain ⟨c, hc⟩ := vecMax_attained (n := 2)
    (fun c => vecMax fun h => vecMax fun w => g c h w)
  obtain ⟨h, hh⟩ := vecMax_attained (fun h => vecMax fun w => g c h w)
  obtain ⟨w, hw⟩ := vecMax_attained (fun w => g c h w)
  exact ⟨c, h, w, by rw [arrMaxCHW, hc, hh, hw]⟩

theorem arrMinCHW_le {H W : ℕ} (g : Fin 3 → Fin (H + 1) → Fin (W + 1) → ℚ)
    (c : Fin 3) (h : Fin (H + 1)) (w : Fin (W + 1)) : arrMinCHW g ≤ g c h w :=
  le_trans (vecMin_le (n := 2) (fun c2 => vecMin fun h2 => vecMin fun w2 => g c2 h2 w2) c)
    (le_trans (vecMin_le (fun h2 => vecMin fun w2 => g c h2 w2) h)
      (vecMin_le (fun w2 => g c h w2) w))

theorem arrMinCHW_attained {H W : ℕ} (g : Fin 3 → Fin (H + 1) → Fin (W + 1) → ℚ) :
    ∃ c h w, arrMinCHW g = g c h w := by
  obtain ⟨c, hc⟩ := vecMin_attained (n := 2)
    (fun c => vecMin fun h => vecMin fun w => g c h w)
  obtain ⟨h, hh⟩ := vecMin_attained (fun h => vecMin fun w => g c h w)
  obtain ⟨w, hw⟩ := vecMin_attained (fun w => g c h w)
  exact ⟨c, h, w, by rw [arrMinCHW, hc, hh, hw]⟩

theorem le_arrMaxHWC {α : Type} [LinearOrder α] {H W : ℕ}
    (s : Fin (H + 1) → Fin (W + 1) → Fin 3 → α)
    (h : Fin (H + 1)) (w : Fin (W + 1)) (c : Fin 3) : s h w c ≤ arrMaxHWC s :=
  le_trans (le_vecMax (n := 2) (fun c2 => s h w c2) c)
    (le_trans (le_vecMax (fun w2 => vecMax (n := 2) fun c2 => s h w2 c2) w)
      (le_vecMax (fun h2 => vecMax fun w2 => vecMax (n := 2) fun c2 => s h2 w2 c2) h))

theorem arrMaxHWC_attained {α : Type} [LinearOrder α] {H W : ℕ}
    (s : Fin (H + 1) → Fin (W + 1) → Fin 3 → α) :
    ∃ h w c, arrMaxHWC s = s h w c := by
  obtain ⟨h, hh⟩ := vecMax_attained
    (fun h => vecMax fun w => vecMax (n := 2) fun c => s h w c)
  obtain ⟨w, hw⟩ := vecMax_attained (fun w => vecMax (n := 2) fun c => s h w c)
  obtain ⟨c, hc⟩ := vecMax_attained (n := 2) (fun c => s h w c)
  exact ⟨h, w, c, by rw [arrMaxHWC, hh, hw, hc]⟩

theorem arrMinHWC_le {α : Type} [LinearOrder α] {H W : ℕ}
    (s : Fin (H + 1) → Fin (W + 1) → Fin 3 → α)
    (h : Fin (H + 1)) (w : Fin (W + 1)) (c : Fin 3) : arrMinHWC s ≤ s h w c :=
  le_trans (vecMin_le (fun h2 => vecMin fun w2 => vecMin (n := 2) fun c2 => s h2 w2 c2) h)
    (le_trans (vecMin_le (fun w2 => vecMin (n := 2) fun c2 => s h w2 c2) w)
      (vecMin_le (n := 2) (fun c2 => s h w c2) c))

theorem arrMinHWC_attained {α : Type} [LinearOrder α] {H W : ℕ}
    (s : Fin (H + 1) → Fin (W + 1) → Fin 3 → α) :
    ∃ h w c, arrMinHWC s = s h w c := by
  obtain ⟨h, hh⟩ := vecMin_attained
    (fun h => vecMin fun w => vecMin (n := 2) fun c => s h w c)
  obtain ⟨w, hw⟩ := vecMin_attained (fun w => vecMin (n := 2) fun c => s h w c)
  obtain ⟨c, hc⟩ := vecMin_attained (n := 2) (fun c => s h w c)
  exact ⟨h, w, c, by rw [arrMinHWC, hh, hw, hc]⟩

/-! ## `preprocess_image` (lines 71-101) and `recreate_image` (lines 104-127)

Images are `Fin H → Fin W → Fin 3 → ·` arrays in OpenCV layout (rows,
columns, BGR channels); preprocessed tensors are `Fin 1 → Fin 3 → Fin H →
Fin W → ℚ` matching the `(1, 3, H, W)` tensor shape after `unsqueeze_(0)`.
The `Fin.rev` channel index models the `[..., ::-1]` slice. -/

/-- ImageNet per-channel means, line 82. -/
def imagenet_mean : List ℚ := [0.485, 0.456, 0.406]

/-- ImageNet per-channel standard deviations, line 83. -/
def imagenet_std : List ℚ := [0.229, 0.224, 0.225]

/-- Negated means used by `recreate_image`, line 114. -/
def reverse_mean : List ℚ := [-0.485, -0.456, -0.406]

/-- Reciprocal standard deviations used by `recreate_image`, line 115. -/
def reverse_std : List ℚ := [1 / 0.229, 1 / 0.224, 1 / 0.225]

/-- `preprocess_image` with `resize_im=False` (lines 87-101; the resize on
line 86 is skipped). The input is a uint8 BGR image; `np.float32` casts it,
`[..., ::-1]` flips BGR to RGB, `transpose(2, 0, 1)` moves channels first,
each channel is divided by 255, shifted by its mean and divided by its std,
and `unsqueeze_(0)` prepends a singleton batch axis. -/
def preprocess_image_noresize {H W : ℕ} (cv2im : Fin H → Fin W → Fin 3 → ℤ) :
    Fin 1 → Fin 3 → Fin H → Fin W → ℚ :=
  let im_as_arr : Fin H → Fin W → Fin 3 → ℚ := fun h w c => (cv2im h w c : ℚ)
  let rgb : Fin H → Fin W → Fin 3 → ℚ := fun h w c => im_as_arr h w c.rev
  let chw : Fin 3 → Fin H → Fin W → ℚ := fun c h w => rgb h w c
  let n1 : Fin 3 → Fin H → Fin W → ℚ := fun c h w => chw c h w / 255
  let n2 : Fin 3 → Fin H → Fin W → ℚ := fun c h w => n1 c h w - imagenet_mean.getD c.val 0
  let n3 : Fin 3 → Fin H → Fin W → ℚ := fun c h w => n2 c h w / imagenet_std.getD c.val 0
  fun _ c h w => n3 c h w

/-- `recreate_image` (lines 104-127): drop the batch axis, divide each
channel by `reverse_std`, subtract `reverse_mean`, clamp values above 1 to 1
and below 0 to 0, multiply by 255 and `np.round`, convert to uint8,
`transpose(1, 2, 0)` back to rows-columns-channels and flip RGB to BGR. -/
def recreate_image {H W : ℕ} (im_as_var : Fin 1 → Fin 3 → Fin H → Fin W → ℚ) :
    Fin H → Fin W → Fin 3 → ℤ :=
  let r0 : Fin 3 → Fin H → Fin W → ℚ := fun c h w => im_as_var 0 c h w
  let r1 : Fin 3 → Fin H → Fin W → ℚ := fun c h w => r0 c h w / reverse_std.getD c.val 0
  let r2 : Fin 3 → Fin H → Fin W → ℚ := fun c h w => r1 c h w - reverse_mean.getD c.val 0
  let r3 : Fin 3 → Fin H → Fin W → ℚ := fun c h w => if 1 < r2 c h w then 1 else r2 c h w
  let r4 : Fin 3 → Fin H → Fin W → ℚ := fun c h w => if r3 c h w < 0 then 0 else r3 c h w
  let r5 : Fin 3 → Fin H → Fin W → ℤ := fun c h w => npRound (r4 c h w * 255)
  let r6 : Fin 3 → Fin H → Fin W → ℤ := fun c h w => npUint8OfInt (r5 c h w)
  fun h w c => r6 c.rev h w

theorem reverse_mean_eq_neg_mean :
    ∀ d : Fin 3, reverse_mean.getD d.val 0 = -(imagenet_mean.getD d.val 0) := by
  intro d
  fin_cases d <;> norm_num [reverse_mean, imagenet_mean]

theorem reverse_std_eq_inv_std :
    ∀ d : Fin 3, reverse_std.getD d.val 0 = 1 / imagenet_std.getD d.val 0 := by
  intro d
  fin_cases d <;> norm_num [reverse_std, imagenet_std]

theorem imagenet_std_ne_zero : ∀ d : Fin 3, imagenet_std.getD d.val 0 ≠ 0 := by
  intro d
  fin_cases d <;> norm_num [imagenet_std]

/-- C2. `preprocess_image` performs per-channel normalization: without the
optional resize, the output tensor — of shape (1, 3, H, W) by its type —
holds at batch index `b`, channel `c`, pixel `(h, w)` the value
`(pixel / 255 - mean c) / std c`, where the pixel is read from the input at
channel `c.rev` (the BGR-to-RGB reordering). -/
theorem preprocess_image_normalizes {H W : ℕ} (cv2im : Fin H → Fin W → Fin 3 → ℤ)
    (b : Fin 1) (c : Fin 3) (h : Fin H) (w : Fin W) :
    preprocess_image_noresize cv2im b c h w =
      ((cv2im h w c.rev : ℚ) / 255 - imagenet_mean.getD c.val 0) /
        imagenet_std.getD c.val 0 := rfl

/-- C1. Round trip: for every H-by-W-by-3 image with integer pixel values in
[0, 255], `recreate_image` applied to `preprocess_image` (with
`resize_im=False`) returns the original array — same shape and BGR channel
order, every pixel recovered exactly. -/
theorem recreate_preprocess_roundtrip {H W : ℕ} (cv2im : Fin H → Fin W → Fin 3 → ℤ)
    (him : ∀ h w c, 0 ≤ cv2im h w c ∧ cv2im h w c ≤ 255) :
    ∀ h w c, recreate_image (preprocess_image_noresize cv2im) h w c = cv2im h w c := by
  intro h w c
  obtain ⟨h0, h255⟩ := him h w c
  have hq0 : (0 : ℚ) ≤ (cv2im h w c : ℚ) := by exact_mod_cast h0
  have hq255 : ((cv2im h w c : ℚ)) ≤ 255 := by exact_mod_cast h255
  dsimp only [recreate_image, preprocess_image_noresize]
  rw [Fin.rev_rev, reverse_std_eq_inv_std, reverse_mean_eq_neg_mean]
  rw [div_div_eq_mul_div, div_one, div_mul_cancel₀ _ (imagenet_std_ne_zero c.rev)]
  rw [sub_neg_eq_add, sub_add_cancel]
  rw [if_neg (not_lt.2 ((div_le_one (by norm_num)).2 hq255))]
  rw [if_neg (not_lt.2 (div_nonneg hq0 (by norm_num)))]
  rw [div_mul_cancel₀ _ (by norm_num : (255 : ℚ) ≠ 0)]
  rw [npRound_intCast]
  exact npUint8OfInt_of_mem_Icc _ h0 h255

/-- C1 witness: the round trip evaluated on a concrete 1-by-1 image. -/
theorem recreate_preprocess_roundtrip_witness :
    (∀ h w c, 0 ≤ (fun (_ : Fin 1) (_ : Fin 1) (c : Fin 3) => 50 + (c.val : ℤ)) h w c ∧
        (fun (_ : Fin 1) (_ : Fin 1) (c : Fin 3) => 50 + (c.val : ℤ)) h w c ≤ 255) ∧
      ∀ h w c, recreate_image (preprocess_image_noresize
          (fun (_ : Fin 1) (_ : Fin 1) (c : Fin 3) => 50 + (c.val : ℤ))) h w c =
        50 + (c.val : ℤ) :=
  ⟨by decide, recreate_preprocess_roundtrip _ (by decide)⟩

/-! ## `save_gradient_images` (lines 22-39)

The file-system side effects (directory creation, `cv2.imwrite`) have no
bearing on the returned array and are not modelled; the function's value is
the array it writes and returns. -/

/-- `save_gradient_images`: shift the gradient so its minimum is 0, divide by
the new maximum, scale by 255 and convert to uint8, `transpose(1, 2, 0)` to
rows-columns-channels, and flip the channel order (`[..., ::-1]`). -/
def save_gradient_images {H W : ℕ} (gradient : Fin 3 → Fin (H + 1) → Fin (W + 1) → ℚ) :
    Fin (H + 1) → Fin (W + 1) → Fin 3 → ℤ :=
  let g1 : Fin 3 → Fin (H + 1) → Fin (W + 1) → ℚ :=
    fun c h w => gradient c h w - arrMinCHW gradient
  let g2 : Fin 3 → Fin (H + 1) → Fin (W + 1) → ℚ :=
    fun c h w => g1 c h w / arrMaxCHW g1
  let g3 : Fin 3 → Fin (H + 1) → Fin (W + 1) → ℤ :=
    fun c h w => npUint8 (g2 c h w * 255)
  fun h w c => g3 c.rev h w

theorem shifted_max {H W : ℕ} (g : Fin 3 → Fin (H + 1) → Fin (W + 1) → ℚ) :
    arrMaxCHW (fun c h w => g c h w - arrMinCHW g) = arrMaxCHW g - arrMinCHW g := by
  apply le_antisymm
  · obtain ⟨c, h, w, heq⟩ := arrMaxCHW_attained (fun c h w => g c h w - arrMinCHW g)
    rw [heq]
    exact sub_le_sub_right (le_arrMaxCHW g c h w) _
  · obtain ⟨c, h, w, heq⟩ := arrMaxCHW_attained g
    calc arrMaxCHW g - arrMinCHW g = g c h w - arrMinCHW g := by rw [heq]
      _ ≤ _ := le_arrMaxCHW (fun c h w => g c h w - arrMinCHW g) c h w

theorem min_lt_max_of_ne {H W : ℕ} (g : Fin 3 → Fin (H + 1) → Fin (W + 1) → ℚ)
    (hne : ∃ c h w c2 h2 w2, g c h w ≠ g c2 h2 w2) : arrMinCHW g < arrMaxCHW g := by
  obtain ⟨c, h, w, c2, h2, w2, hv⟩ := hne
  rcases lt_or_le (arrMinCHW g) (arrMaxCHW g) with hlt | hle
  · exact hlt
  · exfalso
    apply hv
    have e1 : g c h w = arrMinCHW g :=
      le_antisymm (le_trans (le_arrMaxCHW g c h w) hle) (arrMinCHW_le g c h w)
    have e2 : g c2 h2 w2 = arrMinCHW g :=
      le_antisymm (le_trans (le_arrMaxCHW g c2 h2 w2) hle) (arrMinCHW_le g c2 h2 w2)
    rw [e1, e2]

/-- C5. Gradient image export: whenever the gradient values are not all
equal, every entry of the returned uint8 array lies in [0, 255], its minimum
is exactly 0 and its maximum is exactly 255. -/
theorem save_gradient_images_range {H W : ℕ}
    (gradient : Fin 3 → Fin (H + 1) → Fin (W + 1) → ℚ)
    (hne : ∃ c h w c2 h2 w2, gradient c h w ≠ gradient c2 h2 w2) :
    (∀ h w c, 0 ≤ save_gradient_images gradient h w c ∧
        save_gradient_images gradient h w c ≤ 255) ∧
      arrMinHWC (save_gradient_images gradient) = 0 ∧
      arrMaxHWC (save_gradient_images gradient) = 255 := by
  set m : ℚ := arrMinCHW gradient with hm
  set M : ℚ := arrMaxCHW gradient with hM
  have hlt : m < M := min_lt_max_of_ne gradient hne
  have hD : arrMaxCHW (fun c h w => gradient c h w - m) = M - m := shifted_max gradient
  have hDpos : (0 : ℚ) < M - m := sub_pos.2 hlt
  have hval : ∀ c h w, save_gradient_images gradient h w c =
      npUint8 ((gradient c.rev h w - m) / (M - m) * 255) := by
    intro c h w
    dsimp only [save_gradient_images]
    rw [hD]
  have hbounds : ∀ c h w, 0 ≤ save_gradient_images gradient h w c ∧
      save_gradient_images gradient h w c ≤ 255 := by
    intro c h w
    rw [hval c h w]
    have h0 : (0 : ℚ) ≤ (gradient c.rev h w - m) / (M - m) * 255 := by
      apply mul_nonneg _ (by norm_num)
      exact div_nonneg (sub_nonneg.2 (arrMinCHW_le gradient c.rev h w)) hDpos.le
    have h255 : (gradient c.rev h w - m) / (M - m) * 255 ≤ 255 := by
      have hr : (gradient c.rev h w - m) / (M - m) ≤ 1 :=
        (div_le_one hDpos).2 (sub_le_sub_right (le_arrMaxCHW gradient c.rev h w) m)
      calc (gradient c.rev h w - m) / (M - m) * 255 ≤ 1 * 255 := by
            exact mul_le_mul_of_nonneg_right hr (by norm_num)
        _ = 255 := by norm_num
    obtain ⟨-, hge, hle⟩ := npUint8_of_mem_Icc _ h0 h255
    exact ⟨hge, hle⟩
  refine ⟨fun h w c => hbounds c h w, ?_, ?_⟩
  · obtain ⟨c0, h0, w0, hmin⟩ := arrMinCHW_attained gradient
    have hzero : save_gradient_images gradient h0 w0 c0.rev = 0 := by
      rw [hval c0.rev h0 w0, Fin.rev_rev, ← hmin]
      norm_num [npUint8, ratTrunc]
    apply le_antisymm
    · calc arrMinHWC (save_gradient_images gradient) ≤
          save_gradient_images gradient h0 w0 c0.rev := arrMinHWC_le _ h0 w0 c0.rev
        _ = 0 := hzero
    · obtain ⟨h, w, c, hatt⟩ := arrMinHWC_attained (save_gradient_images gradient)
      rw [hatt]
      exact (hbounds c h w).1
  · obtain ⟨c0, h0, w0, hmax⟩ := arrMaxCHW_attained gradient
    have h255 : save_gradient_images gradient h0 w0 c0.rev = 255 := by
      rw [hval c0.rev h0 w0, Fin.rev_rev, ← hmax]
      rw [div_self hDpos.ne.symm, one_mul]
      norm_num [npUint8, ratTrunc]
    apply le_antisymm
    · obtain ⟨h, w, c, hatt⟩ := arrMaxHWC_attained (save_gradient_images gradient)
      rw [hatt]
      exact (hbounds c h w).2
    · calc (255 : ℤ) = save_gradient_images gradient h0 w0 c0.rev := h255.symm
        _ ≤ _ := le_arrMaxHWC _ h0 w0 c0.rev

/-- C5 witness: the export evaluated on a concrete 3-by-1-by-1 gradient
whose channels hold 0, 1, 2. -/
theorem save_gradient_images_range_witness :
    (∃ c h w c2 h2 w2, (fun (c : Fin 3) (_ : Fin 1) (_ : Fin 1) => (c.val : ℚ)) c h w ≠
        (fun (c : Fin 3) (_ : Fin 1) (_ : Fin 1) => (c.val : ℚ)) c2 h2 w2) ∧
      ((∀ h w c, 0 ≤ save_gradient_images (fun (c : Fin 3) (_ : Fin 1) (_ : Fin 1) =>
            (c.val : ℚ)) h w c ∧
          save_gradient_images (fun (c : Fin 3) (_ : Fin 1) (_ : Fin 1) =>
            (c.val : ℚ)) h w c ≤ 255) ∧
        arrMinHWC (save_gradient_images (fun (c : Fin 3) (_ : Fin 1) (_ : Fin 1) =>
          (c.val : ℚ))) = 0 ∧
        arrMaxHWC (save_gradient_images (fun (c : Fin 3) (_ : Fin 1) (_ : Fin 1) =>
          (c.val : ℚ))) = 255) :=
  ⟨⟨0, 0, 0, 1, 0, 0, by norm_num⟩,
    save_gradient_images_range _ ⟨0, 0, 0, 1, 0, 0, by norm_num⟩⟩

/-! ## `get_positive_negative_saliency` (lines 130-141) -/

/-- `get_positive_negative_saliency`: the positive map is
`np.maximum(0, gradient) / gradient.max()` and the negative map is
`np.maximum(0, -gradient) / -gradient.min()`. -/
def get_positive_negative_saliency {H W : ℕ}
    (gradient : Fin 3 → Fin (H + 1) → Fin (W + 1) → ℚ) :
    (Fin 3 → Fin (H + 1) → Fin (W + 1) → ℚ) ×
      (Fin 3 → Fin (H + 1) → Fin (W + 1) → ℚ) :=
  (fun c h w => max 0 (gradient c h w) / arrMaxCHW gradient,
   fun c h w => max 0 (-gradient c h w) / -arrMinCHW gradient)

/-- C9. When the gradient has a strictly positive and a strictly negative
entry, both saliency maps take values in [0, 1], each attains 1, and at every
position the positive map is nonzero exactly where the gradient is positive
and the negative map exactly where it is negative (so at most one of the two
is nonzero anywhere). -/
theorem get_positive_negative_saliency_spec {H W : ℕ}
    (gradient : Fin 3 → Fin (H + 1) → Fin (W + 1) → ℚ)
    (hpos : ∃ c h w, 0 < gradient c h w) (hneg : ∃ c h w, gradient c h w < 0) :
    (∀ c h w, 0 ≤ (get_positive_negative_saliency gradient).1 c h w ∧
        (get_positive_negative_saliency gradient).1 c h w ≤ 1 ∧
        0 ≤ (get_positive_negative_saliency gradient).2 c h w ∧
        (get_positive_negative_saliency gradient).2 c h w ≤ 1) ∧
      (∃ c h w, (get_positive_negative_saliency gradient).1 c h w = 1) ∧
      (∃ c h w, (get_positive_negative_saliency gradient).2 c h w = 1) ∧
      (∀ c h w, ((get_positive_negative_saliency gradient).1 c h w ≠ 0 ↔
          0 < gradient c h w) ∧
        ((get_positive_negative_saliency gradient).2 c h w ≠ 0 ↔
          gradient c h w < 0)) := by
  obtain ⟨cp, hp, wp, hvp⟩ := hpos
  obtain ⟨cn, hn, wn, hvn⟩ := hneg
  have hM : 0 < arrMaxCHW gradient := lt_of_lt_of_le hvp (le_arrMaxCHW gradient cp hp wp)
  have hm : arrMinCHW gradient < 0 := lt_of_le_of_lt (arrMinCHW_le gradient cn hn wn) hvn
  have hmpos : 0 < -arrMinCHW gradient := neg_pos.2 hm
  dsimp only [get_positive_negative_saliency]
  refine ⟨fun c h w => ⟨?_, ?_, ?_, ?_⟩, ?_, ?_, fun c h w => ⟨?_, ?_⟩⟩
  · exact div_nonneg (le_max_left 0 _) hM.le
  · exact (div_le_one hM).2 (max_le hM.le (le_arrMaxCHW gradient c h w))
  · exact div_nonneg (le_max_left 0 _) hmpos.le
  · refine (div_le_one hmpos).2 (max_le hmpos.le ?_)
    exact neg_le_neg (arrMinCHW_le gradient c h w)
  · obtain ⟨c, h, w, hatt⟩ := arrMaxCHW_attained gradient
    refine ⟨c, h, w, ?_⟩
    rw [← hatt, max_eq_right hM.le, div_self hM.ne.symm]
  · obtain ⟨c, h, w, hatt⟩ := arrMinCHW_attained gradient
    refine ⟨c, h, w, ?_⟩
    rw [← hatt, max_eq_right hmpos.le, div_self hmpos.ne.symm]
  · constructor
    · intro hne
      by_contra hle
      apply hne
      rw [max_eq_left (not_lt.1 hle), zero_div]
    · intro hgt
      have : max 0 (gradient c h w) = gradient c h w := max_eq_right hgt.le
      rw [this]
      exact (div_pos hgt hM).ne.symm
  · constructor
    · intro hne
      by_contra hle
      apply hne
      rw [max_eq_left (neg_nonpos_of_nonneg (not_lt.1 hle)), zero_div]
    · intro hlt
      have : max 0 (-gradient c h w) = -gradient c h w := max_eq_right (neg_nonneg.2 hlt.le)
      rw [this]
      exact (div_pos (neg_pos.2 hlt) hmpos).ne.symm

/-- C9 witness: the saliency maps evaluated on a concrete 3-by-1-by-1
gradient whose channels hold -1, 0, 1. -/
theorem get_positive_negative_saliency_spec_witness :
    (∃ c h w, 0 < (fun (c : Fin 3) (_ : Fin 1) (_ : Fin 1) => (c.val : ℚ) - 1) c h w) ∧
      (∃ c h w, (fun (c : Fin 3) (_ : Fin 1) (_ : Fin 1) => (c.val : ℚ) - 1) c h w < 0) ∧
      ((∀ c h w, 0 ≤ (get_positive_negative_saliency
            (fun (c : Fin 3) (_ : Fin 1) (_ : Fin 1) => (c.val : ℚ) - 1)).1 c h w ∧
          (get_positive_negative_saliency
            (fun (c : Fin 3) (_ : Fin 1) (_ : Fin 1) => (c.val : ℚ) - 1)).1 c h w ≤ 1 ∧
          0 ≤ (get_positive_negative_saliency
            (fun (c : Fin 3) (_ : Fin 1) (_ : Fin 1) => (c.val : ℚ) - 1)).2 c h w ∧
          (get_positive_negative_saliency
            (fun (c : Fin 3) (_ : Fin 1) (_ : Fin 1) => (c.val : ℚ) - 1)).2 c h w ≤ 1) ∧
        (∃ c h w, (get_positive_negative_saliency
          (fun (c : Fin 3) (_ : Fin 1) (_ : Fin 1) => (c.val : ℚ) - 1)).1 c h w = 1) ∧
        (∃ c h w, (get_positive_negative_saliency
          (fun (c : Fin 3) (_ : Fin 1) (_ : Fin 1) => (c.val : ℚ) - 1)).2 c h w = 1) ∧
        (∀ c h w, ((get_positive_negative_saliency
            (fun (c : Fin 3) (_ : Fin 1) (_ : Fin 1) => (c.val : ℚ) - 1)).1 c h w ≠ 0 ↔
            0 < (fun (c : Fin 3) (_ : Fin 1) (_ : Fin 1) => (c.val : ℚ) - 1) c h w) ∧
          ((get_positive_negative_saliency
            (fun (c : Fin 3) (_ : Fin 1) (_ : Fin 1) => (c.val : ℚ) - 1)).2 c h w ≠ 0 ↔
            (fun (c : Fin 3) (_ : Fin 1) (_ : Fin 1) => (c.val : ℚ) - 1) c h w < 0))) :=
  ⟨⟨2, 0, 0, by norm_num⟩, ⟨0, 0, 0, by norm_num⟩,
    get_positive_negative_saliency_spec _ ⟨2, 0, 0, by norm_num⟩ ⟨0, 0, 0, by norm_num⟩⟩

/-! ## `save_class_activation_on_image` (lines 42-69)

`cv2.applyColorMap(·, cv2.COLORMAP_HSV)` and `cv2.resize` are external
library calls; they enter the embedding as function parameters. Per the
claim's matching-spatial-size hypothesis the resized original image has the
activation map's spatial extent, and the target size passed to the resize
call is recorded as an argument. The `cv2.imwrite` side effects do not
affect the returned arrays and are not modelled. -/

/-- `save_class_activation_on_image`: colormap the activation map, resize the
original image to 32-by-32 for the `Custom` network and 224-by-224 otherwise,
add the two float arrays, divide by the maximum of the sum, scale by 255 and
convert to uint8. Returns the grayscale map, the heatmap and the overlay, as
the source does. -/
def save_class_activation_on_image {H W : ℕ} (network : String)
    (applyColorMapHSV : ℤ → Fin 3 → ℚ)
    (cv2resize : ℕ × ℕ → Fin (H + 1) → Fin (W + 1) → Fin 3 → ℚ)
    (activation_map : Fin (H + 1) → Fin (W + 1) → ℤ) :
    (Fin (H + 1) → Fin (W + 1) → ℤ) × (Fin (H + 1) → Fin (W + 1) → Fin 3 → ℚ) ×
      (Fin (H + 1) → Fin (W + 1) → Fin 3 → ℤ) :=
  let activation_heatmap : Fin (H + 1) → Fin (W + 1) → Fin 3 → ℚ :=
    fun h w c => applyColorMapHSV (activation_map h w) c
  let org_img : Fin (H + 1) → Fin (W + 1) → Fin 3 → ℚ :=
    cv2resize (if network = "Custom" then (32, 32) else (224, 224))
  let img_with_heatmap : Fin (H + 1) → Fin (W + 1) → Fin 3 → ℚ :=
    fun h w c => activation_heatmap h w c + org_img h w c
  let normed : Fin (H + 1) → Fin (W + 1) → Fin 3 → ℚ :=
    fun h w c => img_with_heatmap h w c / arrMaxHWC img_with_heatmap
  (activation_map, activation_heatmap, fun h w c => npUint8 (255 * normed h w c))

/-- C4. CAM overlay rendering: under the cv2 library contracts — the HSV
colormap produces channel values in [0, 255] with one channel equal to 255
(its colors are fully saturated), and the resized uint8 image has values in
[0, 255] — the overlay equals the colormapped heatmap plus the image resized
to 32-by-32 for `Custom` and 224-by-224 otherwise, divided by the maximum of
the sum, scaled by 255 and truncated to uint8; hence every overlay pixel
lies in [0, 255] and at least one equals 255. -/
theorem save_class_activation_on_image_spec {H W : ℕ} (network : String)
    (applyColorMapHSV : ℤ → Fin 3 → ℚ)
    (cv2resize : ℕ × ℕ → Fin (H + 1) → Fin (W + 1) → Fin 3 → ℚ)
    (activation_map : Fin (H + 1) → Fin (W + 1) → ℤ)
    (hcmap : ∀ v c, 0 ≤ applyColorMapHSV v c ∧ applyColorMapHSV v c ≤ 255)
    (hsat : ∀ v, ∃ c, applyColorMapHSV v c = 255)
    (hresize : ∀ sz h w c, 0 ≤ cv2resize sz h w c ∧ cv2resize sz h w c ≤ 255) :
    ((save_class_activation_on_image network applyColorMapHSV cv2resize
        activation_map).2.2 = fun h w c =>
      npUint8 (255 * ((applyColorMapHSV (activation_map h w) c +
          cv2resize (if network = "Custom" then (32, 32) else (224, 224)) h w c) /
        arrMaxHWC (fun h2 w2 c2 => applyColorMapHSV (activation_map h2 w2) c2 +
          cv2resize (if network = "Custom" then (32, 32) else (224, 224)) h2 w2 c2)))) ∧
      (∀ h w c, 0 ≤ (save_class_activation_on_image network applyColorMapHSV cv2resize
            activation_map).2.2 h w c ∧
          (save_class_activation_on_image network applyColorMapHSV cv2resize
            activation_map).2.2 h w c ≤ 255) ∧
      (∃ h w c, (save_class_activation_on_image network applyColorMapHSV cv2resize
        activation_map).2.2 h w c = 255) := by
  set sz : ℕ × ℕ := if network = "Custom" then (32, 32) else (224, 224) with hsz
  set s : Fin (H + 1) → Fin (W + 1) → Fin 3 → ℚ :=
    fun h w c => applyColorMapHSV (activation_map h w) c + cv2resize sz h w c with hs
  have hval : (save_class_activation_on_image network applyColorMapHSV cv2resize
      activation_map).2.2 = fun h w c => npUint8 (255 * (s h w c / arrMaxHWC s)) := rfl
  have hs0 : ∀ h w c, 0 ≤ s h w c := fun h w c =>
    add_nonneg (hcmap (activation_map h w) c).1 (hresize sz h w c).1
  have hSpos : (0 : ℚ) < arrMaxHWC s := by
    obtain ⟨c, hc⟩ := hsat (activation_map 0 0)
    have h255 : (255 : ℚ) ≤ s 0 0 c := by
      rw [hs]
      calc (255 : ℚ) = 255 + 0 := by norm_num
        _ ≤ applyColorMapHSV (activation_map 0 0) c + cv2resize sz 0 0 c :=
          add_le_add hc.ge (hresize sz 0 0 c).1
    calc (0 : ℚ) < 255 := by norm_num
      _ ≤ s 0 0 c := h255
      _ ≤ arrMaxHWC s := le_arrMaxHWC s 0 0 c
  have hbounds : ∀ h w c, 0 ≤ (save_class_activation_on_image network applyColorMapHSV
      cv2resize activation_map).2.2 h w c ∧
      (save_class_activation_on_image network applyColorMapHSV
        cv2resize activation_map).2.2 h w c ≤ 255 := by
    intro h w c
    rw [hval]
    have hr0 : 0 ≤ s h w c / arrMaxHWC s := div_nonneg (hs0 h w c) hSpos.le
    have hr1 : s h w c / arrMaxHWC s ≤ 1 := (div_le_one hSpos).2 (le_arrMaxHWC s h w c)
    have h0 : (0 : ℚ) ≤ 255 * (s h w c / arrMaxHWC s) := by positivity
    have h255 : 255 * (s h w c / arrMaxHWC s) ≤ 255 := by
      calc 255 * (s h w c / arrMaxHWC s) ≤ 255 * 1 :=
          mul_le_mul_of_nonneg_left hr1 (by norm_num)
        _ = 255 := by norm_num
    obtain ⟨-, hge, hle⟩ := npUint8_of_mem_Icc _ h0 h255
    exact ⟨hge, hle⟩
  refine ⟨hval, hbounds, ?_⟩
  obtain ⟨h, w, c, hatt⟩ := arrMaxHWC_attained s
  refine ⟨h, w, c, ?_⟩
  rw [hval]
  show npUint8 (255 * (s h w c / arrMaxHWC s)) = 255
  rw [← hatt, div_self hSpos.ne.symm]
  norm_num [npUint8, ratTrunc]

/-- C4 witness: the overlay evaluated at a concrete 1-by-1 activation map
with a constant red colormap and a black resized image. -/
theorem save_class_activation_on_image_spec_witness :
    (∀ v c, 0 ≤ (fun (_ : ℤ) (c : Fin 3) => if c.val = 0 then (255 : ℚ) else 0) v c ∧
        (fun (_ : ℤ) (c : Fin 3) => if c.val = 0 then (255 : ℚ) else 0) v c ≤ 255) ∧
      (∀ v, ∃ c, (fun (_ : ℤ) (c : Fin 3) => if c.val = 0 then (255 : ℚ) else 0) v c = 255) ∧
      (∀ sz h w c, 0 ≤ (fun (_ : ℕ × ℕ) (_ : Fin 1) (_ : Fin 1) (_ : Fin 3) => (0 : ℚ))
          sz h w c ∧
        (fun (_ : ℕ × ℕ) (_ : Fin 1) (_ : Fin 1) (_ : Fin 3) => (0 : ℚ)) sz h w c ≤ 255) ∧
      ((∀ h w c, 0 ≤ (save_class_activation_on_image "VGG19"
            (fun (_ : ℤ) (c : Fin 3) => if c.val = 0 then (255 : ℚ) else 0)
            (fun (_ : ℕ × ℕ) (_ : Fin 1) (_ : Fin 1) (_ : Fin 3) => (0 : ℚ))
            (fun (_ : Fin 1) (_ : Fin 1) => (7 : ℤ))).2.2 h w c ∧
          (save_class_activation_on_image "VGG19"
            (fun (_ : ℤ) (c : Fin 3) => if c.val = 0 then (255 : ℚ) else 0)
            (fun (_ : ℕ × ℕ) (_ : Fin 1) (_ : Fin 1) (_ : Fin 3) => (0 : ℚ))
            (fun (_ : Fin 1) (_ : Fin 1) => (7 : ℤ))).2.2 h w c ≤ 255) ∧
        (∃ h w c, (save_class_activation_on_image "VGG19"
            (fun (_ : ℤ) (c : Fin 3) => if c.val = 0 then (255 : ℚ) else 0)
            (fun (_ : ℕ × ℕ) (_ : Fin 1) (_ : Fin 1) (_ : Fin 3) => (0 : ℚ))
            (fun (_ : Fin 1) (_ : Fin 1) => (7 : ℤ))).2.2 h w c = 255)) :=
  ⟨fun v c => by simp only []; split_ifs <;> norm_num,
    fun v => ⟨0, by norm_num⟩,
    fun sz h w c => by norm_num,
    (save_class_activation_on_image_spec "VGG19"
      (fun (_ : ℤ) (c : Fin 3) => if c.val = 0 then (255 : ℚ) else 0)
      (fun (_ : ℕ × ℕ) (_ : Fin 1) (_ : Fin 1) (_ : Fin 3) => (0 : ℚ))
      (fun (_ : Fin 1) (_ : Fin 1) => (7 : ℤ))
      (fun v c => by simp only []; split_ifs <;> norm_num)
      (fun v => ⟨0, by norm_num⟩)
      (fun sz h w c => by norm_num)).2⟩

/-! ## `convert_to_grayscale` (lines 13-19) -/

def insertSorted (x : ℚ) : List ℚ → List ℚ
  | [] => [x]
  | y :: ys => if x ≤ y then x :: y :: ys else y :: insertSorted x ys

/-- Ascending sort of a list of values, as `np.percentile` performs on the
flattened array. -/
def sortAsc (l : List ℚ) : List ℚ := l.foldr insertSorted []

/-- `np.percentile(l, q)` with the default linear interpolation: virtual
index `q * (n - 1) / 100` into the ascending sort, interpolating between the
two neighbouring entries (the upper index clamped to the last entry). -/
def np_percentile (l : List ℚ) (q : ℚ) : ℚ :=
  let s := sortAsc l
  let k : ℚ := q * ((l.length : ℚ) - 1) / 100
  let i : ℕ := (⌊k⌋).toNat
  let f : ℚ := k - (⌊k⌋ : ℚ)
  let lo := s.getD i 0
  let hi := s.getD (min (i + 1) (l.length - 1)) 0
  lo + f * (hi - lo)

/-- `np.min` of a nonempty list; 0 for the empty list, on which numpy
raises. -/
def listMin (l : List ℚ) : ℚ :=
  match l with
  | [] => 0
  | x :: xs => xs.foldl min x

/-- Models IEEE float division followed by `np.clip(·, 0, 1)`: dividing by
zero yields NaN (`none`) when the numerator is also zero — and `np.clip`
propagates NaN — or ±infinity otherwise, which clips to 1 or 0; a finite
quotient clips to `min 1 (max 0 ·)`. -/
def float_div_clip01 (x d : ℚ) : Option ℚ :=
  if d = 0 then
    if x = 0 then none
    else if 0 < x then some 1
    else some 0
  else some (min 1 (max 0 (x / d)))

/-- `np.sum(np.abs(cv2im), axis=0)` over the three channels (line 14). -/
def grayscale_of {H W : ℕ} (cv2im : Fin 3 → Fin (H + 1) → Fin (W + 1) → ℚ) :
    Fin (H + 1) → Fin (W + 1) → ℚ :=
  fun h w => |cv2im 0 h w| + |cv2im 1 h w| + |cv2im 2 h w|

/-- Row-major flattening of the (H, W) grayscale array, over which
`np.percentile` and `np.min` operate. -/
def gray_flat {H W : ℕ} (cv2im : Fin 3 → Fin (H + 1) → Fin (W + 1) → ℚ) : List ℚ :=
  (List.finRange (H + 1)).flatMap fun h =>
    (List.finRange (W + 1)).map fun w => grayscale_of cv2im h w

/-- `convert_to_grayscale`: sum absolute values across channels, then map
each pixel through `(g - min) / (p99 - min)` clipped to [0, 1], and
`np.expand_dims(·, axis=0)` to shape (1, H, W). -/
def convert_to_grayscale {H W : ℕ} (cv2im : Fin 3 → Fin (H + 1) → Fin (W + 1) → ℚ) :
    Fin 1 → Fin (H + 1) → Fin (W + 1) → Option ℚ :=
  let im_max := np_percentile (gray_flat cv2im) 99
  let im_min := listMin (gray_flat cv2im)
  fun _ h w => float_div_clip01 (grayscale_of cv2im h w - im_min) (im_max - im_min)

/-- C8 counterexample: on the constant all-ones 3-by-1-by-1 input the summed
array is the singleton [3], whose 99th percentile equals its minimum, so the
normalization divides 0 by 0 — NaN in numpy — and the output pixel is not in
[0, 1]; the claim fails as stated for this input. -/
theorem convert_to_grayscale_counterexample :
    convert_to_grayscale (fun (_ : Fin 3) (_ : Fin 1) (_ : Fin 1) => (1 : ℚ)) 0 0 0 =
        none ∧
      ¬ (∀ h w, ∃ q, convert_to_grayscale
          (fun (_ : Fin 3) (_ : Fin 1) (_ : Fin 1) => (1 : ℚ)) 0 h w = some q ∧
          0 ≤ q ∧ q ≤ 1) := by
  have hnone : convert_to_grayscale
      (fun (_ : Fin 3) (_ : Fin 1) (_ : Fin 1) => (1 : ℚ)) 0 0 0 = none := by
    norm_num [convert_to_grayscale, gray_flat, grayscale_of, np_percentile, sortAsc,
      insertSorted, listMin, float_div_clip01, List.finRange_succ_eq_map]
  refine ⟨hnone, fun hall => ?_⟩
  obtain ⟨q, hq, -⟩ := hall 0 0
  rw [hnone] at hq
  exact Option.noConfusion hq

/-- C8 (amended). Whenever the 99th percentile of the summed absolute values
strictly exceeds their minimum, `convert_to_grayscale` returns an array of
shape (1, H, W) whose values all lie in [0, 1], and every pixel whose summed
value is above that percentile is clipped to exactly 1 rather than scaled. -/
theorem convert_to_grayscale_range {H W : ℕ}
    (cv2im : Fin 3 → Fin (H + 1) → Fin (W + 1) → ℚ)
    (hlt : listMin (gray_flat cv2im) < np_percentile (gray_flat cv2im) 99) :
    (∀ b h w, ∃ q, convert_to_grayscale cv2im b h w = some q ∧ 0 ≤ q ∧ q ≤ 1) ∧
      (∀ b h w, np_percentile (gray_flat cv2im) 99 < grayscale_of cv2im h w →
        convert_to_grayscale cv2im b h w = some 1) := by
  have hd : (0 : ℚ) < np_percentile (gray_flat cv2im) 99 - listMin (gray_flat cv2im) :=
    sub_pos.2 hlt
  constructor
  · intro b h w
    refine ⟨min 1 (max 0 ((grayscale_of cv2im h w - listMin (gray_flat cv2im)) /
      (np_percentile (gray_flat cv2im) 99 - listMin (gray_flat cv2im)))), ?_, ?_, ?_⟩
    · dsimp only [convert_to_grayscale, float_div_clip01]
      rw [if_neg hd.ne.symm]
    · exact le_min (by norm_num) (le_max_left 0 _)
    · exact min_le_left _ _
  · intro b h w hgt
    dsimp only [convert_to_grayscale, float_div_clip01]
    rw [if_neg hd.ne.symm]
    have hx : np_percentile (gray_flat cv2im) 99 - listMin (gray_flat cv2im) ≤
        grayscale_of cv2im h w - listMin (gray_flat cv2im) :=
      sub_le_sub_right hgt.le _
    have hr : (1 : ℚ) ≤ (grayscale_of cv2im h w - listMin (gray_flat cv2im)) /
        (np_percentile (gray_flat cv2im) 99 - listMin (gray_flat cv2im)) :=
      (one_le_div hd).2 hx
    rw [max_eq_right (le_trans (by norm_num) hr), min_eq_left hr]

/-- C8 witness: the amended claim evaluated on a concrete 3-by-1-by-2 input
whose two pixel columns sum to 0 and 3. -/
theorem convert_to_grayscale_range_witness :
    listMin (gray_flat (fun (_ : Fin 3) (_ : Fin 1) (w : Fin 2) =>
        if w.val = 0 then (0 : ℚ) else 1)) <
      np_percentile (gray_flat (fun (_ : Fin 3) (_ : Fin 1) (w : Fin 2) =>
        if w.val = 0 then (0 : ℚ) else 1)) 99 ∧
      ((∀ b h w, ∃ q, convert_to_grayscale (fun (_ : Fin 3) (_ : Fin 1) (w : Fin 2) =>
            if w.val = 0 then (0 : ℚ) else 1) b h w = some q ∧ 0 ≤ q ∧ q ≤ 1) ∧
        (∀ b h w, np_percentile (gray_flat (fun (_ : Fin 3) (_ : Fin 1) (w : Fin 2) =>
              if w.val = 0 then (0 : ℚ) else 1)) 99 <
            grayscale_of (fun (_ : Fin 3) (_ : Fin 1) (w : Fin 2) =>
              if w.val = 0 then (0 : ℚ) else 1) h w →
          convert_to_grayscale (fun (_ : Fin 3) (_ : Fin 1) (w : Fin 2) =>
            if w.val = 0 then (0 : ℚ) else 1) b h w = some 1)) := by
  have hf : ⌊(99 : ℚ) * ((2 : ℕ) - 1) / 100⌋ = 0 := by
    rw [Int.floor_eq_zero_iff]
    constructor <;> norm_num
  have hflat : gray_flat (fun (_ : Fin 3) (_ : Fin 1) (w : Fin 2) =>
      if w.val = 0 then (0 : ℚ) else 1) = [0, 3] := by
    norm_num [gray_flat, grayscale_of, List.finRange_succ_eq_map]
  have hlt : listMin (gray_flat (fun (_ : Fin 3) (_ : Fin 1) (w : Fin 2) =>
      if w.val = 0 then (0 : ℚ) else 1)) <
      np_percentile (gray_flat (fun (_ : Fin 3) (_ : Fin 1) (w : Fin 2) =>
        if w.val = 0 then (0 : ℚ) else 1)) 99 := by
    rw [hflat]
    norm_num [listMin, np_percentile, sortAsc, insertSorted, min_def, hf]
  exact ⟨hlt, convert_to_grayscale_range _ hlt⟩

/-! ## `get_params` (lines 144-250) -/

/-- The 7-entry example list of `get_params` (lines 212-218). -/
def example_list : List (String × ℕ) :=
  [("input_images/snake.jpg", 56), ("input_images/cat_dog.png", 243),
   ("input_images/spider.png", 72), ("input_images/volcano.jpg", 980),
   ("input_images/pelican.jpg", 144), ("input_images/jellyfish.jpg", 107),
   ("input_images/admiral.jpg", 321)]

/-- Python list subscript semantics: negative indices address from the end
and anything out of range raises `IndexError`, modelled as `none`. -/
def pyListGet {α : Type} (l : List α) (i : ℤ) : Option α :=
  if 0 ≤ i then l.get? i.toNat
  else if -(l.length : ℤ) ≤ i then l.get? (i + l.length).toNat
  else none

/-- The `(img_path, target_class)` example selected by `get_params` for
non-`Custom` networks (lines 220-222); `none` models the `IndexError` from
`example_list[selected_example]` propagating uncaught — the source has no
try/except anywhere. -/
def get_params_example (example_index : ℤ) : Option (String × ℕ) :=
  pyListGet example_list example_index

/-- C6. No failure recovery: for every `example_index` outside the 7-entry
example list (beyond either end, after Python's negative indexing), the
lookup in `get_params` fails and the error propagates as `none` — no default
value or partial result is substituted — while every in-range index
succeeds. -/
theorem get_params_example_propagates (i : ℤ) :
    (7 ≤ i ∨ i < -7 → get_params_example i = none) ∧
      (-7 ≤ i → i < 7 → (get_params_example i).isSome = true) := by
  have hlen : example_list.length = 7 := rfl
  constructor
  · rintro (h7 | hneg)
    · have h0 : (0 : ℤ) ≤ i := by omega
      have hge : example_list.length ≤ i.toNat := by rw [hlen]; omega
      simp only [get_params_example, pyListGet, if_pos h0]
      exact List.get?_eq_none.2 hge
    · have h0 : ¬ (0 : ℤ) ≤ i := by omega
      have hrange : ¬ (-(example_list.length : ℤ) ≤ i) := by rw [hlen]; push_cast; omega
      simp [get_params_example, pyListGet, h0, hrange]
  · intro hlow hhigh
    rcases le_or_lt 0 i with h0 | h0
    · have hb : i.toNat < example_list.length := by rw [hlen]; omega
      simp only [get_params_example, pyListGet, if_pos h0]
      rw [List.get?_eq_get hb]
      rfl
    · have hge : -(example_list.length : ℤ) ≤ i := by rw [hlen]; push_cast; omega
      have hb : (i + example_list.length).toNat < example_list.length := by
        rw [hlen]; push_cast; omega
      simp only [get_params_example, pyListGet, if_neg (not_le.2 h0), if_pos hge]
      rw [List.get?_eq_get hb]
      rfl

/-- C6 witness: index 7, one past the end, propagates the lookup failure. -/
theorem get_params_example_propagates_witness : get_params_example 7 = none :=
  (get_params_example_propagates 7).1 (Or.inl (by norm_num))

/-- Worker processes requested by the `DataLoader` built on the `get_params`
code path for the given arguments (lines 168 and 193 pass `num_workers=2`);
code paths that construct no `DataLoader` request none. -/
def get_params_num_workers (network training : String) : ℕ :=
  if network = "Custom" then
    if training = "Normal" then 2
    else if training = "Adversarial" then 2
    else 0
  else 0

/-- C7 counterexample: the claim that no code path spawns worker processes is
false — the `Custom`/`Normal` path of `get_params` constructs its CIFAR-10
`DataLoader` with `num_workers=2`. -/
theorem get_params_num_workers_counterexample :
    get_params_num_workers "Custom" "Normal" = 2 ∧
      get_params_num_workers "Custom" "Normal" ≠ 0 := by
  constructor <;> simp [get_params_num_workers]

/-- C7 (amended). Every operation of the program is sequential except that
the CIFAR-10 `DataLoader` built by `get_params` when `network = 'Custom'` and
`training` is `'Normal'` or `'Adversarial'` is configured with exactly two
worker processes; every other code path requests none. -/
theorem get_params_num_workers_char (network training : String) :
    (network = "Custom" ∧ (training = "Normal" ∨ training = "Adversarial") →
      get_params_num_workers network training = 2) ∧
      (¬ (network = "Custom" ∧ (training = "Normal" ∨ training = "Adversarial")) →
        get_params_num_workers network training = 0) := by
  unfold get_params_num_workers
  split_ifs with h1 h2 h3 <;> simp_all

/-- C7 witness: exactly two workers on the `Custom`/`Adversarial` path and
none on a non-`Custom` path. -/
theorem get_params_num_workers_char_witness :
    get_params_num_workers "Custom" "Adversarial" = 2 ∧
      get_params_num_workers "VGG19" "Normal" = 0 :=
  ⟨(get_params_num_workers_char "Custom" "Adversarial").1 ⟨rfl, Or.inr rfl⟩,
   (get_params_num_workers_char "VGG19" "Normal").2 (by simp)⟩

/-- The four network names recognized by the model-selection chain of
`get_params` (lines 230-240). -/
def model_names : List String := ["AlexNet", "VGG19", "ResNet50", "Custom"]

inductive PretrainedModel
  | alexnet | vgg19 | resnet50 | custom
deriving DecidableEq

/-- The model-selection chain of `get_params` (lines 230-240): `none` models
`pretrained_model` never being assigned, so the subsequent
`pretrained_model.cuda()` / `return` raises `UnboundLocalError` instead of
producing a tuple. -/
def select_model (network : String) : Option PretrainedModel :=
  if network = "AlexNet" then some PretrainedModel.alexnet
  else if network = "VGG19" then some PretrainedModel.vgg19
  else if network = "ResNet50" then some PretrainedModel.resnet50
  else if network = "Custom" then some PretrainedModel.custom
  else none

/-- C10. For every network name other than the four recognized ones, no
branch of the model-selection chain assigns a model: the call never returns
a tuple and instead fails with an unbound-local-variable error, modelled as
`none`. -/
theorem select_model_unknown (network : String) (h : network ∉ model_names) :
    select_model network = none := by
  simp only [model_names, List.mem_cons, List.not_mem_nil, or_false, not_or] at h
  obtain ⟨h1, h2, h3, h4⟩ := h
  simp [select_model, h1, h2, h3, h4]

/-- C10 witness: an unrecognized network name yields no model. -/
theorem select_model_unknown_witness : select_model "SqueezeNet" = none :=
  select_model_unknown "SqueezeNet" (by simp [model_names])

/-! ## `prediction_reader` (lines 253-272)

The label dictionary (the CIFAR-10 class tuple for `Custom`, otherwise the
parsed `labels.txt` file) enters as a lookup function; `cifar_classes` below
is the `Custom` instance from line 257. `F.softmax` is embedded over ℝ.
`np.argsort` uses an unstable sort, so it is modelled by its contract
`argsortSpec`: any permutation of the index range listing the values in
ascending order. -/

/-- The CIFAR-10 class labels used for the `Custom` network (line 257). -/
def cifar_classes : List String :=
  ["plane", "car", "bird", "cat", "deer", "dog", "frog", "horse", "ship", "truck"]

/-- `F.softmax(preds, dim=0)` (line 269). -/
noncomputable def softmax (preds : List ℝ) : List ℝ :=
  preds.map fun x => Real.exp x / (preds.map Real.exp).sum

/-- Contract of `output.argsort()` (line 270): a permutation of the index
range that lists the values in ascending order. The default numpy sort is
unstable, so the order of tied values is unspecified and any such
permutation is a valid result. -/
def argsortSpec (o : List ℝ) (p : List ℕ) : Prop :=
  List.Perm p (List.range o.length) ∧
    List.Sorted (· ≤ ·) (p.map fun i => o.getD i 0)

/-- `output.argsort()[-length:][::-1]` (line 270): the last `length` entries
of the ascending argsort, reversed. -/
def toppreds (p : List ℕ) (length : ℕ) : List ℕ :=
  (p.drop (p.length - length)).reverse

/-- `prediction_reader`: softmax the raw predictions, take the indices of
the `length` largest output values in descending order, and return their
labels together with the corresponding probabilities (`output[toppreds]`). -/
noncomputable def prediction_reader (labels : ℕ → String) (preds : List ℝ)
    (length : ℕ) (p : List ℕ) : List String × List ℝ :=
  let output := softmax preds
  let tp := toppreds p length
  (tp.map labels, tp.map fun i => output.getD i 0)

/-- C3 counterexample: the probabilities are not strictly decreasing in
general. With equal raw predictions `[0, 0]` the two softmax outputs tie,
`[0, 1]` is a valid ascending argsort, and `prediction_reader` with
`length = 2` returns two equal probabilities. -/
theorem prediction_reader_counterexample :
    argsortSpec (softmax [(0 : ℝ), 0]) [0, 1] ∧
      1 ≤ 2 ∧ 2 ≤ ([(0 : ℝ), 0]).length ∧
      ¬ List.Sorted (· > ·)
        (prediction_reader (fun i => cifar_classes.getD i "") [(0 : ℝ), 0] 2 [0, 1]).2 := by
  refine ⟨⟨?_, ?_⟩, by norm_num, by norm_num, ?_⟩
  · have hl : (softmax [(0 : ℝ), 0]).length = 2 := by simp [softmax]
    rw [hl]
    rfl
  · simp [softmax, List.Sorted]
  · intro hsorted
    have hprobs : (prediction_reader (fun i => cifar_classes.getD i "")
        [(0 : ℝ), 0] 2 [0, 1]).2 =
        [Real.exp 0 / (Real.exp 0 + (Real.exp 0 + 0)),
         Real.exp 0 / (Real.exp 0 + (Real.exp 0 + 0))] := by
      simp [prediction_reader, toppreds, softmax]
    rw [hprobs] at hsorted
    exact lt_irrefl _ (List.rel_of_sorted_cons hsorted _ (by simp))

/-- C3 (amended). For every prediction list, every valid ascending argsort
`p` of its softmax output, and every `length` between 1 and the number of
classes, `prediction_reader` returns the labels of `length` indices whose
softmax probabilities are greatest — every selected probability is at least
every unselected one — ordered by non-increasing (not strictly decreasing,
because ties are possible) probability, together with those `length`
probabilities in the same order. -/
theorem prediction_reader_topk (labels : ℕ → String) (preds : List ℝ)
    (len : ℕ) (p : List ℕ) (hp : argsortSpec (softmax preds) p)
    (h1 : 1 ≤ len) (hn : len ≤ preds.length) :
    (prediction_reader labels preds len p).1 = (toppreds p len).map labels ∧
      (prediction_reader labels preds len p).2 =
        (toppreds p len).map (fun i => (softmax preds).getD i 0) ∧
      (prediction_reader labels preds len p).2.length = len ∧
      List.Sorted (· ≥ ·) (prediction_reader labels preds len p).2 ∧
      ∀ i ∈ toppreds p len, ∀ j ∈ p, j ∉ toppreds p len →
        (softmax preds).getD j 0 ≤ (softmax preds).getD i 0 := by
  obtain ⟨hperm, hsorted⟩ := hp
  have hplen : p.length = preds.length := by
    have := hperm.length_eq
    simpa [softmax] using this
  have hkey : (prediction_reader labels preds len p).2 =
      ((p.map fun i => (softmax preds).getD i 0).drop (p.length - len)).reverse := by
    simp [prediction_reader, toppreds, List.map_reverse, List.map_drop]
  refine ⟨rfl, rfl, ?_, ?_, ?_⟩
  · rw [hkey]
    simp only [List.length_reverse, List.length_drop, List.length_map]
    omega
  · rw [hkey]
    rw [List.Sorted, List.pairwise_reverse]
    exact (hsorted.sublist (List.drop_sublist _ _))
  · intro i hi j hj hnotin
    have hi2 : i ∈ p.drop (p.length - len) := List.mem_reverse.1 hi
    have hj2 : j ∈ p.take (p.length - len) := by
      have hj3 : j ∉ p.drop (p.length - len) := fun hc => hnotin (List.mem_reverse.2 hc)
      have : j ∈ p.take (p.length - len) ++ p.drop (p.length - len) := by
        rw [List.take_append_drop]; exact hj
      rcases List.mem_append.1 this with h | h
      · exact h
      · exact absurd h hj3
    have hsplit : p.map (fun i => (softmax preds).getD i 0) =
        (p.take (p.length - len)).map (fun i => (softmax preds).getD i 0) ++
          (p.drop (p.length - len)).map (fun i => (softmax preds).getD i 0) := by
      rw [← List.map_append, List.take_append_drop]
    have hcross := (List.pairwise_append.1 (hsplit ▸ hsorted)).2.2
    exact hcross _ (List.mem_map_of_mem _ hj2) _ (List.mem_map_of_mem _ hi2)

/-- C3 witness: the amended claim evaluated at the concrete predictions
`[0, 0]`, ascending argsort `[0, 1]`, `length = 1` and the CIFAR-10 labels. -/
theorem prediction_reader_topk_witness :
    argsortSpec (softmax [(0 : ℝ), 0]) [0, 1] ∧ 1 ≤ 1 ∧ 1 ≤ ([(0 : ℝ), 0]).length ∧
      ((prediction_reader (fun i => cifar_classes.getD i "") [(0 : ℝ), 0] 1 [0, 1]).1 =
          (toppreds [0, 1] 1).map (fun i => cifar_classes.getD i "") ∧
        (prediction_reader (fun i => cifar_classes.getD i "") [(0 : ℝ), 0] 1 [0, 1]).2 =
          (toppreds [0, 1] 1).map (fun i => (softmax [(0 : ℝ), 0]).getD i 0) ∧
        (prediction_reader (fun i => cifar_classes.getD i "") [(0 : ℝ), 0] 1 [0, 1]).2.length
          = 1 ∧
        List.Sorted (· ≥ ·)
          (prediction_reader (fun i => cifar_classes.getD i "") [(0 : ℝ), 0] 1 [0, 1]).2 ∧
        ∀ i ∈ toppreds [0, 1] 1, ∀ j ∈ [0, 1], j ∉ toppreds [0, 1] 1 →
          (softmax [(0 : ℝ), 0]).getD j 0 ≤ (softmax [(0 : ℝ), 0]).getD i 0) := by
  have hspec : argsortSpec (softmax [(0 : ℝ), 0]) [0, 1] := by
    refine ⟨?_, ?_⟩
    · have hl : (softmax [(0 : ℝ), 0]).length = 2 := by simp [softmax]
      rw [hl]
      rfl
    · simp [softmax, List.Sorted]
  exact ⟨hspec, le_refl 1, by norm_num,
    prediction_reader_topk _ _ _ _ hspec (le_refl 1) (by norm_num)⟩

end CampMisc
